import Mathlib

/-!
Verification of the release-tagging script `scripts/tag_release.py`.

Strings are modelled as `List Char`.  The script's regular expressions use
`\d`, modelled here as the ASCII digits `'0'`–`'9'` (`Char.isDigit`).

The three substitutions in `pep440_to_npm` use the anchored patterns
`^(\d+\.\d+\.\d+)a(\d+)$`, `^(\d+\.\d+\.\d+)b(\d+)$` and
`^(\d+\.\d+\.\d+)rc(\d+)$`.  Because every `\d+` in these patterns is
followed by a non-digit requirement (`.`, the marker letter, or the end of
the string), the regex engine's greedy matching never backtracks, so the
anchored patterns are implemented faithfully by the deterministic
maximal-munch parser `parse3` / `matchTail` below.
-/

namespace TagRelease

/-- Maximal-munch split of a string into its leading ASCII-digit run and the
rest: the behaviour of a greedy `\d*` at the current position. -/
def spanDigits : List Char → List Char × List Char
  | [] => ([], [])
  | c :: cs =>
    if c.isDigit then
      let p := spanDigits cs
      (c :: p.1, p.2)
    else ([], c :: cs)

/-- All characters are ASCII digits (`\d+` body check). -/
def allDigits (l : List Char) : Bool := l.all Char.isDigit

/-- The first character, if any, is not a digit. -/
def headNotDigit : List Char → Bool
  | [] => true
  | c :: _ => !c.isDigit

/-- Parse the common anchored group `^(\d+\.\d+\.\d+)` of the three
substitution patterns: returns the matched `MAJOR.MINOR.PATCH` text and the
remaining characters, or `none` when the group cannot match at the start of
the string. -/
def parse3 (s : List Char) : Option (List Char × List Char) :=
  let a := spanDigits s
  if a.1 = [] then none
  else if a.2.head? = some '.' then
    let b := spanDigits a.2.tail
    if b.1 = [] then none
    else if b.2.head? = some '.' then
      let c := spanDigits b.2.tail
      if c.1 = [] then none
      else some (a.1 ++ '.' :: b.1 ++ '.' :: c.1, c.2)
    else none
  else none

/-- Match the tail `m(\d+)$` of a substitution pattern against the
characters `r` remaining after the numeric triple: the marker `m` must
occur immediately, followed by a digit run `N` that reaches the end of the
string.  Returns `N` on success. -/
def matchTail (m r : List Char) : Option (List Char) :=
  if m.isPrefixOf r then
    let n := spanDigits (r.drop m.length)
    if n.1 = [] then none
    else if n.2 = [] then some n.1
    else none
  else none

/-- Full match of the anchored pattern `^(\d+\.\d+\.\d+)m(\d+)$` against a
string; returns the two capture groups (the numeric triple and `N`). -/
def matchPep (m s : List Char) : Option (List Char × List Char) :=
  match parse3 s with
  | some pr =>
    match matchTail m pr.2 with
    | some n => some (pr.1, n)
    | none => none
  | none => none

/-- One `re.sub` application: with an anchored pattern there is at most one
match, replaced by `\1<repl>\2`; a non-matching string passes through. -/
def subMarker (m repl s : List Char) : List Char :=
  match matchPep m s with
  | some pn => pn.1 ++ repl ++ pn.2
  | none => s

/-- `pep440_to_npm` from `scripts/tag_release.py`: the three `re.sub`
calls applied in sequence (`a` → `-alpha.`, then `b` → `-beta.`, then
`rc` → `-rc.`). -/
def pep440_to_npm (version : List Char) : List Char :=
  subMarker ['r', 'c'] ("-rc.".data)
    (subMarker ['b'] ("-beta.".data)
      (subMarker ['a'] ("-alpha.".data) version))

/-- Substring search for a fixed pattern, the behaviour of `re.search` on a
literal pattern: true iff `pat` occurs as a contiguous substring of `s`. -/
def containsSub (pat : List Char) : List Char → Bool
  | [] => pat.isEmpty
  | c :: cs => pat.isPrefixOf (c :: cs) || containsSub pat cs

/-- `re.search(r'-(alpha|beta|rc)', version)` from `main`: the normalized
version contains `-alpha`, `-beta` or `-rc` as a substring. -/
def searchPre (v : List Char) : Bool :=
  containsSub ("-alpha".data) v || containsSub ("-beta".data) v ||
    containsSub ("-rc".data) v

/-- The release channel chosen by `main`. -/
inductive Channel where
  | release
  | preRelease
deriving DecidableEq

/-- The channel `main` selects for a raw input version: `pre-release` iff
the pre-release search succeeds on the normalized version. -/
def channelOf (raw : List Char) : Channel :=
  if searchPre (pep440_to_npm raw) then Channel.preRelease else Channel.release

/-- The tag `main` computes: `pre-releases/<version>` or
`releases/<version>` over the normalized version. -/
def tagOf (raw : List Char) : List Char :=
  if searchPre (pep440_to_npm raw) then
    "pre-releases/".data ++ pep440_to_npm raw
  else
    "releases/".data ++ pep440_to_npm raw

/-- Shorthand for the `MAJOR.MINOR.PATCH` text `d1 ++ "." ++ d2 ++ "." ++ d3`. -/
def triple (d1 d2 d3 : List Char) : List Char := d1 ++ '.' :: d2 ++ '.' :: d3

/-! ### Facts about the maximal-munch digit scanner -/

lemma spanDigits_eq_append (l : List Char) : (spanDigits l).1 ++ (spanDigits l).2 = l := by
  induction l with
  | nil => rfl
  | cons c cs ih =>
    by_cases h : c.isDigit
    · simp [spanDigits, h, ih]
    · simp [spanDigits, h]

lemma spanDigits_fst_digits (l : List Char) : allDigits (spanDigits l).1 = true := by
  induction l with
  | nil => rfl
  | cons c cs ih =>
    by_cases h : c.isDigit
    · simp only [allDigits] at ih ⊢
      simp [spanDigits, h, ih]
    · simp [spanDigits, h, allDigits]

lemma spanDigits_snd_head (l : List Char) : headNotDigit (spanDigits l).2 = true := by
  induction l with
  | nil => rfl
  | cons c cs ih =>
    by_cases h : c.isDigit
    · simpa [spanDigits, h] using ih
    · simp [spanDigits, h, headNotDigit]

lemma spanDigits_append (ds rest : List Char) (hds : allDigits ds = true)
    (hr : headNotDigit rest = true) : spanDigits (ds ++ rest) = (ds, rest) := by
  induction ds with
  | nil =>
    cases rest with
    | nil => rfl
    | cons c cs =>
      have hc : c.isDigit = false := by simpa [headNotDigit] using hr
      simp [spanDigits, hc]
  | cons d ds' ih =>
    simp only [allDigits, List.all_cons, Bool.and_eq_true] at hds
    simp [spanDigits, hds.1, ih hds.2]

/-! ### Characterizing the anchored pattern matcher -/

lemma parse3_canonical (d1 d2 d3 rest : List Char)
    (h1 : d1 ≠ []) (h2 : d2 ≠ []) (h3 : d3 ≠ [])
    (a1 : allDigits d1 = true) (a2 : allDigits d2 = true) (a3 : allDigits d3 = true)
    (hr : headNotDigit rest = true) :
    parse3 (triple d1 d2 d3 ++ rest) = some (triple d1 d2 d3, rest) := by
  have e : triple d1 d2 d3 ++ rest = d1 ++ ('.' :: (d2 ++ '.' :: (d3 ++ rest))) := by
    simp [triple]
  have s1 : spanDigits (d1 ++ ('.' :: (d2 ++ '.' :: (d3 ++ rest)))) =
      (d1, '.' :: (d2 ++ '.' :: (d3 ++ rest))) :=
    spanDigits_append d1 _ a1 rfl
  have s2 : spanDigits (d2 ++ ('.' :: (d3 ++ rest))) = (d2, '.' :: (d3 ++ rest)) :=
    spanDigits_append d2 _ a2 rfl
  have s3 : spanDigits (d3 ++ rest) = (d3, rest) :=
    spanDigits_append d3 rest a3 hr
  rw [e]
  simp [parse3, s1, s2, s3, h1, h2, h3, triple]

lemma matchTail_of_not_prefix (m r : List Char) (h : m.isPrefixOf r = false) :
    matchTail m r = none := by
  simp [matchTail, h]

lemma matchTail_marker (m n : List Char) (hn : n ≠ []) (an : allDigits n = true) :
    matchTail m (m ++ n) = some n := by
  have hp : m.isPrefixOf (m ++ n) = true := by simp
  have hd : (m ++ n).drop m.length = n := List.drop_left m n
  have hs : spanDigits n = (n, []) := by
    simpa using spanDigits_append n [] an rfl
  simp [matchTail, hp, hd, hs, hn]

lemma matchTail_some_inv (m r n : List Char) (h : matchTail m r = some n) :
    m.isPrefixOf r = true ∧ r = m ++ n ∧ n ≠ [] ∧ allDigits n = true := by
  simp only [matchTail] at h
  split at h
  case isFalse => exact absurd h (by simp)
  case isTrue hp =>
    split at h
    case isTrue => exact absurd h (by simp)
    case isFalse hne =>
      split at h
      case isFalse => exact absurd h (by simp)
      case isTrue hnil =>
        have hfst : (spanDigits (r.drop m.length)).1 = n := by
          injection h
        obtain ⟨t, ht⟩ : m <+: r := by
          simpa using hp
        have hdrop : r.drop m.length = t := by
          rw [← ht]; exact List.drop_left m t
        have hteq : t = n := by
          have := spanDigits_eq_append (r.drop m.length)
          rw [hdrop] at this
          rw [hdrop] at hfst hnil
          rw [hfst, hnil] at this
          simpa using this.symm
        refine ⟨hp, ?_, ?_, ?_⟩
        · rw [← ht, hteq]
        · rw [← hfst]; exact fun hc => hne hc
        · rw [← hfst]; exact spanDigits_fst_digits _

lemma matchPep_triple_marker (m n d1 d2 d3 : List Char)
    (h1 : d1 ≠ []) (h2 : d2 ≠ []) (h3 : d3 ≠ [])
    (a1 : allDigits d1 = true) (a2 : allDigits d2 = true) (a3 : allDigits d3 = true)
    (hm : headNotDigit (m ++ n) = true)
    (hn : n ≠ []) (an : allDigits n = true) :
    matchPep m (triple d1 d2 d3 ++ (m ++ n)) = some (triple d1 d2 d3, n) := by
  simp [matchPep, parse3_canonical d1 d2 d3 (m ++ n) h1 h2 h3 a1 a2 a3 hm,
    matchTail_marker m n hn an]

lemma matchPep_triple_rest (m d1 d2 d3 rest : List Char)
    (h1 : d1 ≠ []) (h2 : d2 ≠ []) (h3 : d3 ≠ [])
    (a1 : allDigits d1 = true) (a2 : allDigits d2 = true) (a3 : allDigits d3 = true)
    (hr : headNotDigit rest = true) (hp : m.isPrefixOf rest = false) :
    matchPep m (triple d1 d2 d3 ++ rest) = none := by
  simp [matchPep, parse3_canonical d1 d2 d3 rest h1 h2 h3 a1 a2 a3 hr,
    matchTail_of_not_prefix m rest hp]

lemma isPrefixOf_cons_false (c b : Char) (pm t : List Char) (h : ¬ c = b) :
    (c :: pm).isPrefixOf (b :: t) = false := by
  simp [List.isPrefixOf, h]

lemma isPrefixOf_nil_false (c : Char) (pm : List Char) :
    (c :: pm).isPrefixOf ([] : List Char) = false := by
  simp

lemma eq_cons_of_head? (l : List Char) (c : Char) (h : l.head? = some c) :
    l = c :: l.tail := by
  cases l with
  | nil => simp at h
  | cons a t =>
    simp only [List.head?_cons, Option.some.injEq] at h
    rw [h]
    rfl

lemma cons_isPrefixOf_head (c : Char) (pm r : List Char)
    (h : (c :: pm).isPrefixOf r = true) : r.head? = some c := by
  obtain ⟨t, ht⟩ : (c :: pm) <+: r := by simpa using h
  rw [← ht]
  rfl

/-! ### Inversion of successful matches -/

lemma parse3_some_inv (v p r : List Char) (h : parse3 v = some (p, r)) :
    ∃ d1 d2 d3, d1 ≠ [] ∧ d2 ≠ [] ∧ d3 ≠ [] ∧
      allDigits d1 = true ∧ allDigits d2 = true ∧ allDigits d3 = true ∧
      p = triple d1 d2 d3 ∧ v = p ++ r ∧ headNotDigit r = true := by
  simp only [parse3] at h
  rcases hA : spanDigits v with ⟨d1, r1⟩
  rw [hA] at h
  have ev : d1 ++ r1 = v := by rw [← spanDigits_eq_append v, hA]
  have ad1 : allDigits d1 = true := by
    have hfd := spanDigits_fst_digits v
    rwa [hA] at hfd
  dsimp only at h
  split at h
  · exact absurd h (by simp)
  rename_i h1
  split at h
  case isFalse => exact absurd h (by simp)
  rename_i hdot1
  obtain ⟨t1, rfl⟩ : ∃ t, r1 = '.' :: t := ⟨r1.tail, eq_cons_of_head? _ _ hdot1⟩
  simp only [List.tail_cons] at h
  rcases hB : spanDigits t1 with ⟨d2, r2⟩
  rw [hB] at h
  have et1 : d2 ++ r2 = t1 := by rw [← spanDigits_eq_append t1, hB]
  have ad2 : allDigits d2 = true := by
    have hfd := spanDigits_fst_digits t1
    rwa [hB] at hfd
  dsimp only at h
  split at h
  · exact absurd h (by simp)
  rename_i h2
  split at h
  case isFalse => exact absurd h (by simp)
  rename_i hdot2
  obtain ⟨t2, rfl⟩ : ∃ t, r2 = '.' :: t := ⟨r2.tail, eq_cons_of_head? _ _ hdot2⟩
  simp only [List.tail_cons] at h
  rcases hC : spanDigits t2 with ⟨d3, r3⟩
  rw [hC] at h
  have et2 : d3 ++ r3 = t2 := by rw [← spanDigits_eq_append t2, hC]
  have ad3 : allDigits d3 = true := by
    have hfd := spanDigits_fst_digits t2
    rwa [hC] at hfd
  have hnd : headNotDigit r3 = true := by
    have hsh := spanDigits_snd_head t2
    rwa [hC] at hsh
  dsimp only at h
  split at h
  · exact absurd h (by simp)
  rename_i h3
  simp only [Option.some.injEq, Prod.mk.injEq] at h
  obtain ⟨hpe, hre⟩ := h
  refine ⟨d1, d2, d3, h1, h2, h3, ad1, ad2, ad3, ?_, ?_, ?_⟩
  · rw [← hpe]
    rfl
  · rw [← hpe, ← hre, ← ev, ← et1, ← et2]
    simp
  · rw [← hre]
    exact hnd

lemma matchPep_some_inv (m v p n : List Char) (h : matchPep m v = some (p, n)) :
    ∃ r, parse3 v = some (p, r) ∧ m.isPrefixOf r = true ∧ r = m ++ n ∧
      n ≠ [] ∧ allDigits n = true := by
  simp only [matchPep] at h
  split at h
  case h_2 => exact absurd h (by simp)
  case h_1 pr hpr =>
    obtain ⟨pp, rr⟩ := pr
    split at h
    case h_2 => exact absurd h (by simp)
    case h_1 n' hmt =>
      simp only [Option.some.injEq, Prod.mk.injEq] at h
      obtain ⟨hp1, hn1⟩ := h
      subst hp1
      subst hn1
      obtain ⟨hpre, hreq, hne, hall⟩ := matchTail_some_inv _ _ _ hmt
      exact ⟨rr, hpr, hpre, hreq, hne, hall⟩

/-! ### The three patterns are mutually exclusive -/

lemma matchPep_excl (c1 c2 : Char) (m1 m2 v : List Char) (hne : c1 ≠ c2)
    (h1 : matchPep (c1 :: m1) v ≠ none) : matchPep (c2 :: m2) v = none := by
  cases h2 : matchPep (c2 :: m2) v with
  | none => rfl
  | some pn =>
    obtain ⟨p2, n2⟩ := pn
    obtain ⟨p1, n1, hp1⟩ : ∃ p n, matchPep (c1 :: m1) v = some (p, n) := by
      rcases hx : matchPep (c1 :: m1) v with _ | ⟨⟨p, n⟩⟩
      · exact absurd hx h1
      · exact ⟨p, n, rfl⟩
    obtain ⟨r1, hparse1, hpre1, -, -, -⟩ := matchPep_some_inv _ _ _ _ hp1
    obtain ⟨r2, hparse2, hpre2, -, -, -⟩ := matchPep_some_inv _ _ _ _ h2
    rw [hparse1] at hparse2
    simp only [Option.some.injEq, Prod.mk.injEq] at hparse2
    obtain ⟨-, hr⟩ := hparse2
    have hh1 : r1.head? = some c1 := cons_isPrefixOf_head c1 m1 r1 hpre1
    have hh2 : r1.head? = some c2 := by
      rw [hr]
      exact cons_isPrefixOf_head c2 m2 r2 hpre2
    rw [hh1] at hh2
    simp only [Option.some.injEq] at hh2
    exact absurd hh2 hne

/-! ### A rewritten output matches no pattern -/

lemma matchPep_after_rewrite (m v p n : List Char) (mk : Char) (mrest repl : List Char)
    (h : matchPep m v = some (p, n)) (hrepl : repl.head? = some '-') (hmk : mk ≠ '-') :
    matchPep (mk :: mrest) (p ++ repl ++ n) = none := by
  obtain ⟨r, hparse, -, -, -, -⟩ := matchPep_some_inv m v p n h
  obtain ⟨d1, d2, d3, h1, h2, h3, a1, a2, a3, hp, -, -⟩ := parse3_some_inv v p r hparse
  subst hp
  obtain ⟨t, rfl⟩ : ∃ t, repl = '-' :: t := ⟨repl.tail, eq_cons_of_head? _ _ hrepl⟩
  have e : triple d1 d2 d3 ++ ('-' :: t) ++ n = triple d1 d2 d3 ++ ('-' :: (t ++ n)) := by
    simp
  rw [e]
  exact matchPep_triple_rest (mk :: mrest) d1 d2 d3 ('-' :: (t ++ n)) h1 h2 h3 a1 a2 a3
    rfl (isPrefixOf_cons_false mk '-' mrest (t ++ n) hmk)

/-! ### Unfolding the substitutions -/

lemma subMarker_of_none (m repl v : List Char) (h : matchPep m v = none) :
    subMarker m repl v = v := by
  simp [subMarker, h]

lemma subMarker_of_some (m repl v p n : List Char) (h : matchPep m v = some (p, n)) :
    subMarker m repl v = p ++ repl ++ n := by
  simp [subMarker, h]

/-- The one-of-three case analysis on the input that the sequential pipeline
is claimed to be equivalent to: try the `a` pattern, else the `b` pattern,
else the `rc` pattern, else return the input unchanged. -/
def pep440_cases (v : List Char) : List Char :=
  match matchPep ['a'] v with
  | some pn => pn.1 ++ "-alpha.".data ++ pn.2
  | none =>
    match matchPep ['b'] v with
    | some pn => pn.1 ++ "-beta.".data ++ pn.2
    | none =>
      match matchPep ['r', 'c'] v with
      | some pn => pn.1 ++ "-rc.".data ++ pn.2
      | none => v

/-! Value of the pipeline and of the case analysis in each of the four
possible situations. -/

lemma pep440_pipeline_a (v p n : List Char) (ha : matchPep ['a'] v = some (p, n)) :
    pep440_to_npm v = p ++ "-alpha.".data ++ n := by
  unfold pep440_to_npm
  rw [subMarker_of_some _ _ _ _ _ ha,
    subMarker_of_none _ _ _ (matchPep_after_rewrite ['a'] v p n 'b' [] ("-alpha.".data) ha rfl (by decide)),
    subMarker_of_none _ _ _ (matchPep_after_rewrite ['a'] v p n 'r' ['c'] ("-alpha.".data) ha rfl (by decide))]

lemma pep440_pipeline_b (v p n : List Char) (ha : matchPep ['a'] v = none)
    (hb : matchPep ['b'] v = some (p, n)) :
    pep440_to_npm v = p ++ "-beta.".data ++ n := by
  unfold pep440_to_npm
  rw [subMarker_of_none _ _ _ ha, subMarker_of_some _ _ _ _ _ hb,
    subMarker_of_none _ _ _ (matchPep_after_rewrite ['b'] v p n 'r' ['c'] ("-beta.".data) hb rfl (by decide))]

lemma pep440_pipeline_rc (v p n : List Char) (ha : matchPep ['a'] v = none)
    (hb : matchPep ['b'] v = none) (hrc : matchPep ['r', 'c'] v = some (p, n)) :
    pep440_to_npm v = p ++ "-rc.".data ++ n := by
  unfold pep440_to_npm
  rw [subMarker_of_none _ _ _ ha, subMarker_of_none _ _ _ hb,
    subMarker_of_some _ _ _ _ _ hrc]

lemma pep440_pipeline_none (v : List Char) (ha : matchPep ['a'] v = none)
    (hb : matchPep ['b'] v = none) (hrc : matchPep ['r', 'c'] v = none) :
    pep440_to_npm v = v := by
  unfold pep440_to_npm
  rw [subMarker_of_none _ _ _ ha, subMarker_of_none _ _ _ hb,
    subMarker_of_none _ _ _ hrc]

lemma pep440_cases_a (v p n : List Char) (ha : matchPep ['a'] v = some (p, n)) :
    pep440_cases v = p ++ "-alpha.".data ++ n := by
  unfold pep440_cases
  rw [ha]

lemma pep440_cases_b (v p n : List Char) (ha : matchPep ['a'] v = none)
    (hb : matchPep ['b'] v = some (p, n)) :
    pep440_cases v = p ++ "-beta.".data ++ n := by
  unfold pep440_cases
  rw [ha, hb]

lemma pep440_cases_rc (v p n : List Char) (ha : matchPep ['a'] v = none)
    (hb : matchPep ['b'] v = none) (hrc : matchPep ['r', 'c'] v = some (p, n)) :
    pep440_cases v = p ++ "-rc.".data ++ n := by
  unfold pep440_cases
  rw [ha, hb, hrc]

lemma pep440_cases_none (v : List Char) (ha : matchPep ['a'] v = none)
    (hb : matchPep ['b'] v = none) (hrc : matchPep ['r', 'c'] v = none) :
    pep440_cases v = v := by
  unfold pep440_cases
  rw [ha, hb, hrc]

lemma pipeline_eq_cases (v : List Char) : pep440_to_npm v = pep440_cases v := by
  rcases ha : matchPep ['a'] v with _ | ⟨⟨p, n⟩⟩
  · rcases hb : matchPep ['b'] v with _ | ⟨⟨p, n⟩⟩
    · rcases hrc : matchPep ['r', 'c'] v with _ | ⟨⟨p, n⟩⟩
      · rw [pep440_pipeline_none v ha hb hrc, pep440_cases_none v ha hb hrc]
      · rw [pep440_pipeline_rc v p n ha hb hrc, pep440_cases_rc v p n ha hb hrc]
    · rw [pep440_pipeline_b v p n ha hb, pep440_cases_b v p n ha hb]
  · rw [pep440_pipeline_a v p n ha, pep440_cases_a v p n ha]

/-! ### Substring search -/

lemma containsSub_iff (pat s : List Char) : containsSub pat s = true ↔ pat <:+: s := by
  induction s with
  | nil => simp [containsSub, List.isEmpty_iff]
  | cons c cs ih => simp [containsSub, ih, List.infix_cons_iff]

lemma searchPre_iff (v : List Char) :
    searchPre v = true ↔
      ("-alpha".data <:+: v ∨ "-beta".data <:+: v ∨ "-rc".data <:+: v) := by
  simp [searchPre, containsSub_iff, Bool.or_eq_true, or_assoc]

lemma infix_of_middle (pre mid post : List Char) : mid <:+: pre ++ mid ++ post :=
  ⟨pre, post, rfl⟩

/-! ### The orchestration in `main`

`main` (after the usage check) computes the normalized version and the tag,
checks that `package.json` exists (exiting with code 1 if not), rewrites the
manifest's `version` field and serializes it back with `json.dump(...,
indent=2)` plus a trailing newline, and then runs five git commands in
order through `run_git`, which exits the process with code 1 as soon as one
of them returns a non-zero status. -/

/-- A JSON value of the manifest: a string, or any other JSON value kept in
its serialized text form (the script never inspects non-string values). -/
inductive JVal where
  | jstr (s : List Char)
  | jraw (s : List Char)
deriving DecidableEq

/-- A JSON object as an ordered association list, the model of the Python
`dict` loaded by `json.load` (insertion-ordered, unique keys). -/
def Manifest := List (List Char × JVal)

/-- `package_data['version'] = version` on an insertion-ordered `dict`:
replace the value of an existing key in place, otherwise append the new
binding at the end. -/
def setKey (k : List Char) (v : JVal) : Manifest → Manifest
  | [] => [(k, v)]
  | (k2, v2) :: rest =>
    if k2 = k then (k2, v) :: rest else (k2, v2) :: setKey k v rest

/-- Key lookup in the ordered object. -/
def lookupKey (k : List Char) : Manifest → Option JVal
  | [] => none
  | (k2, v2) :: rest => if k2 = k then some v2 else lookupKey k rest

/-- Serialization of one JSON value (string values quoted; other values by
their retained text). -/
def dumpVal : JVal → List Char
  | JVal.jstr s => '"' :: s ++ ['"']
  | JVal.jraw s => s

/-- The entry lines of `json.dump(..., indent=2)`: each entry indented by
two spaces, entries separated by `",\n"`. -/
def dumpEntries : Manifest → List Char
  | [] => []
  | [(k, v)] => ' ' :: ' ' :: '"' :: k ++ '"' :: ':' :: ' ' :: dumpVal v
  | (k, v) :: rest =>
    (' ' :: ' ' :: '"' :: k ++ '"' :: ':' :: ' ' :: dumpVal v) ++
      ',' :: '\n' :: dumpEntries rest

/-- `json.dump(package_data, f, indent=2)` for a flat object. -/
def jsonDump (m : Manifest) : List Char :=
  match m with
  | [] => ['\x7b', '\x7d']
  | _ => '\x7b' :: '\n' :: dumpEntries m ++ ['\n', '\x7d']

/-- One git command of the release sequence. -/
inductive GitCmd where
  | add (file : List Char)
  | commit (msg : List Char)
  | tagCreate (name : List Char)
  | push (remote ref : List Char)
deriving DecidableEq

/-- The five git commands issued by `main`, in program order. -/
def gitSequence (version tagName : List Char) : List GitCmd :=
  [GitCmd.add ("package.json".data),
   GitCmd.commit ("Finalize version: ".data ++ version),
   GitCmd.tagCreate tagName,
   GitCmd.push ("origin".data) ("HEAD".data),
   GitCmd.push ("origin".data) tagName]

/-- `run_git`: given the exit status of the spawned git process, either
continue (`none`) or terminate the whole program with exit code 1. -/
def run_git (returncode : Nat) : Option Nat :=
  if returncode ≠ 0 then some 1 else none

/-- Run the git commands in order; `exit i` is the status the `i`-th
spawned git process returns.  Produces the list of commands actually
invoked and `some code` when `run_git` terminated the program. -/
def runGits (exit : Nat → Nat) : Nat → List GitCmd → List GitCmd × Option Nat
  | _, [] => ([], none)
  | i, c :: cs =>
    match run_git (exit i) with
    | some code => ([c], some code)
    | none =>
      let r := runGits exit (i + 1) cs
      (c :: r.1, r.2)

/-- The environment `main` executes in: whether `package.json` exists at
the expected path, its parsed contents, and the exit statuses of the
spawned git processes. -/
structure Env where
  packageJsonExists : Bool
  manifest : Manifest
  gitExit : Nat → Nat

/-- The observable outcome of a run of `main`: the process exit code, the
git commands that were actually invoked, and the text written back to
`package.json` (if any). -/
structure MainResult where
  exitCode : Nat
  gitRan : List GitCmd
  written : Option (List Char)
deriving DecidableEq

/-- `main` from `scripts/tag_release.py`, after a successful usage check,
on the single command-line argument `arg`. -/
def mainRun (arg : List Char) (env : Env) : MainResult :=
  let version := pep440_to_npm arg
  let tagName := tagOf arg
  if env.packageJsonExists then
    let newManifest := setKey ("version".data) (JVal.jstr version) env.manifest
    let content := jsonDump newManifest ++ ['\n']
    let r := runGits env.gitExit 0 (gitSequence version tagName)
    match r.2 with
    | some code => ⟨code, r.1, some content⟩
    | none => ⟨0, r.1, some content⟩
  else
    ⟨1, [], none⟩

/-! ### Facts about the orchestration -/

lemma runGits_fail (exit : Nat → Nat) (cs : List GitCmd) (i j : Nat)
    (hj : j < cs.length) (hfail : exit (i + j) ≠ 0)
    (hok : ∀ k, k < j → exit (i + k) = 0) :
    runGits exit i cs = (cs.take (j + 1), some 1) := by
  induction cs generalizing i j with
  | nil => simp at hj
  | cons c cs' ih =>
    cases j with
    | zero =>
      have h0 : exit i ≠ 0 := by simpa using hfail
      simp [runGits, run_git, h0]
    | succ j' =>
      have hi : exit i = 0 := by
        have := hok 0 (Nat.succ_pos j')
        simpa using this
      have hfail' : exit ((i + 1) + j') ≠ 0 := by
        have e : (i + 1) + j' = i + (j' + 1) := by omega
        rw [e]
        exact hfail
      have hok' : ∀ k, k < j' → exit ((i + 1) + k) = 0 := by
        intro k hk
        have e : (i + 1) + k = i + (k + 1) := by omega
        rw [e]
        exact hok (k + 1) (by omega)
      have hj' : j' < cs'.length := by simpa using hj
      simp [runGits, run_git, hi, ih (i + 1) j' hj' hfail' hok']

lemma runGits_ok (exit : Nat → Nat) (cs : List GitCmd) (i : Nat)
    (hok : ∀ k, k < cs.length → exit (i + k) = 0) :
    runGits exit i cs = (cs, none) := by
  induction cs generalizing i with
  | nil => rfl
  | cons c cs' ih =>
    have hi : exit i = 0 := by simpa using hok 0 (by simp)
    have hok' : ∀ k, k < cs'.length → exit ((i + 1) + k) = 0 := by
      intro k hk
      have e : (i + 1) + k = i + (k + 1) := by omega
      rw [e]
      exact hok (k + 1) (by simpa using Nat.succ_lt_succ hk)
    simp [runGits, run_git, hi, ih (i + 1) hok']

lemma lookupKey_setKey_ne (key k : List Char) (v : JVal) (d : Manifest)
    (h : k ≠ key) : lookupKey k (setKey key v d) = lookupKey k d := by
  induction d with
  | nil =>
    have : ¬ key = k := fun hc => h hc.symm
    simp [setKey, lookupKey, this]
  | cons e rest ih =>
    obtain ⟨k2, v2⟩ := e
    by_cases hk : k2 = key
    · subst hk
      have : ¬ k2 = k := fun hc => h hc.symm
      simp [setKey, lookupKey, this]
    · by_cases hk2 : k2 = k
      · simp [setKey, lookupKey, hk, hk2, h]
      · simp [setKey, lookupKey, hk, hk2, ih]

lemma lookupKey_setKey_self (key : List Char) (v : JVal) (d : Manifest) :
    lookupKey key (setKey key v d) = some v := by
  induction d with
  | nil => simp [setKey, lookupKey]
  | cons e rest ih =>
    obtain ⟨k2, v2⟩ := e
    by_cases hk : k2 = key
    · simp [setKey, lookupKey, hk]
    · simp [setKey, lookupKey, hk, ih]

/-- A string already in canonical semver form: `MAJOR.MINOR.PATCH`,
optionally followed by a pre-release segment `-<alpha|beta|rc>.N`. -/
def canonicalSemver (v : List Char) : Prop :=
  ∃ d1 d2 d3, d1 ≠ [] ∧ d2 ≠ [] ∧ d3 ≠ [] ∧
    allDigits d1 = true ∧ allDigits d2 = true ∧ allDigits d3 = true ∧
    (v = triple d1 d2 d3 ∨
      ∃ lbl n, (lbl = "alpha".data ∨ lbl = "beta".data ∨ lbl = "rc".data) ∧
        n ≠ [] ∧ allDigits n = true ∧
        v = triple d1 d2 d3 ++ ('-' :: (lbl ++ ('.' :: n))))

lemma setKey_keys (key : List Char) (v : JVal) (d : Manifest) :
    (setKey key v d).map Prod.fst = d.map Prod.fst ∨
      (setKey key v d).map Prod.fst = d.map Prod.fst ++ [key] := by
  induction d with
  | nil => right; rfl
  | cons e rest ih =>
    obtain ⟨k2, v2⟩ := e
    by_cases hk : k2 = key
    · left
      simp [setKey, hk]
    · rcases ih with ih | ih
      · left
        simp [setKey, hk, ih]
      · right
        simp [setKey, hk, ih]

/-! ## The claims -/

/-- Claim C1: for every input of the form `<major>.<minor>.<patch>a<N>`
(three dot-separated digit sequences followed immediately by the marker and
a digit sequence, with no separator), `pep440_to_npm` returns
`<major>.<minor>.<patch>-alpha.<N>`; analogously `b<N>` inputs yield
`-beta.<N>` and `rc<N>` inputs yield `-rc.<N>`, with the numeric components
carried through verbatim. -/
theorem C1_pep440_rewrites (d1 d2 d3 n : List Char)
    (h1 : d1 ≠ []) (h2 : d2 ≠ []) (h3 : d3 ≠ []) (hn : n ≠ [])
    (a1 : allDigits d1 = true) (a2 : allDigits d2 = true) (a3 : allDigits d3 = true)
    (an : allDigits n = true) :
    pep440_to_npm (triple d1 d2 d3 ++ ('a' :: n)) =
      triple d1 d2 d3 ++ "-alpha.".data ++ n ∧
    pep440_to_npm (triple d1 d2 d3 ++ ('b' :: n)) =
      triple d1 d2 d3 ++ "-beta.".data ++ n ∧
    pep440_to_npm (triple d1 d2 d3 ++ ('r' :: 'c' :: n)) =
      triple d1 d2 d3 ++ "-rc.".data ++ n := by
  refine ⟨?_, ?_, ?_⟩
  · exact pep440_pipeline_a _ _ _
      (matchPep_triple_marker ['a'] n d1 d2 d3 h1 h2 h3 a1 a2 a3 rfl hn an)
  · have hb : matchPep ['b'] (triple d1 d2 d3 ++ ('b' :: n)) = some (triple d1 d2 d3, n) :=
      matchPep_triple_marker ['b'] n d1 d2 d3 h1 h2 h3 a1 a2 a3 rfl hn an
    have ha : matchPep ['a'] (triple d1 d2 d3 ++ ('b' :: n)) = none :=
      matchPep_excl 'b' 'a' [] [] _ (by decide) (by rw [hb]; exact fun hc => by cases hc)
    exact pep440_pipeline_b _ _ _ ha hb
  · have hrc : matchPep ['r', 'c'] (triple d1 d2 d3 ++ ('r' :: 'c' :: n)) =
        some (triple d1 d2 d3, n) :=
      matchPep_triple_marker ['r', 'c'] n d1 d2 d3 h1 h2 h3 a1 a2 a3 rfl hn an
    have ha : matchPep ['a'] (triple d1 d2 d3 ++ ('r' :: 'c' :: n)) = none :=
      matchPep_excl 'r' 'a' ['c'] [] _ (by decide) (by rw [hrc]; exact fun hc => by cases hc)
    have hb : matchPep ['b'] (triple d1 d2 d3 ++ ('r' :: 'c' :: n)) = none :=
      matchPep_excl 'r' 'b' ['c'] [] _ (by decide) (by rw [hrc]; exact fun hc => by cases hc)
    exact pep440_pipeline_rc _ _ _ ha hb hrc

/-- Witness for C1 at `3.0.0a6`, `3.0.0b6` and `3.0.0rc6`. -/
theorem C1_pep440_rewrites_witness :
    pep440_to_npm (triple ['3'] ['0'] ['0'] ++ ('a' :: ['6'])) =
      triple ['3'] ['0'] ['0'] ++ "-alpha.".data ++ ['6'] ∧
    pep440_to_npm (triple ['3'] ['0'] ['0'] ++ ('b' :: ['6'])) =
      triple ['3'] ['0'] ['0'] ++ "-beta.".data ++ ['6'] ∧
    pep440_to_npm (triple ['3'] ['0'] ['0'] ++ ('r' :: 'c' :: ['6'])) =
      triple ['3'] ['0'] ['0'] ++ "-rc.".data ++ ['6'] :=
  C1_pep440_rewrites ['3'] ['0'] ['0'] ['6'] (by decide) (by decide) (by decide)
    (by decide) (by decide) (by decide) (by decide) (by decide)

/-- Claim C2: for every input string, the channel is `pre-release` iff the
normalized string (the output of `pep440_to_npm`) contains `-alpha`,
`-beta` or `-rc` as a literal substring anywhere; otherwise the channel is
`release`. -/
theorem C2_classification (v : List Char) :
    (channelOf v = Channel.preRelease ↔
      ("-alpha".data <:+: pep440_to_npm v ∨ "-beta".data <:+: pep440_to_npm v ∨
        "-rc".data <:+: pep440_to_npm v)) ∧
    (channelOf v = Channel.release ↔
      ¬ ("-alpha".data <:+: pep440_to_npm v ∨ "-beta".data <:+: pep440_to_npm v ∨
        "-rc".data <:+: pep440_to_npm v)) := by
  have hiff := searchPre_iff (pep440_to_npm v)
  by_cases h : searchPre (pep440_to_npm v) = true
  · have hx := hiff.mp h
    simp [channelOf, h, hx]
  · have hx : ¬ ("-alpha".data <:+: pep440_to_npm v ∨ "-beta".data <:+: pep440_to_npm v ∨
        "-rc".data <:+: pep440_to_npm v) := fun hc => h (hiff.mpr hc)
    have hf : searchPre (pep440_to_npm v) = false := by simpa using h
    simp [channelOf, hf, hx]

/-- Witness for C2 at `3.0.0a6`, whose normalized form contains `-alpha`. -/
theorem C2_classification_witness :
    channelOf ("3.0.0a6".data) = Channel.preRelease :=
  (C2_classification ("3.0.0a6".data)).1.mpr
    (Or.inl ⟨"3.0.0".data, '.' :: ['6'], by decide⟩)

/-- Claim C3: normalization is a no-op on strings already in canonical
semver form (with or without a pre-release segment), hence idempotent on
them. -/
theorem C3_idempotent (v : List Char) (h : canonicalSemver v) :
    pep440_to_npm v = v ∧
      pep440_to_npm (pep440_to_npm v) = pep440_to_npm v := by
  obtain ⟨d1, d2, d3, h1, h2, h3, a1, a2, a3, hv⟩ := h
  have hfix : pep440_to_npm v = v := by
    rcases hv with hv | ⟨lbl, n, hlbl, hn, an, hv⟩
    · subst hv
      have key : ∀ m : List Char, m ≠ [] → matchPep m (triple d1 d2 d3) = none := by
        intro m hm
        obtain ⟨c, t, rfl⟩ := List.exists_cons_of_ne_nil hm
        have := matchPep_triple_rest (c :: t) d1 d2 d3 [] h1 h2 h3 a1 a2 a3 rfl
          (isPrefixOf_nil_false c t)
        simpa using this
      exact pep440_pipeline_none _ (key ['a'] (by decide)) (key ['b'] (by decide))
        (key ['r', 'c'] (by decide))
    · subst hv
      have key : ∀ (c : Char) (t : List Char), c ≠ '-' →
          matchPep (c :: t) (triple d1 d2 d3 ++ ('-' :: (lbl ++ ('.' :: n)))) = none := by
        intro c t hc
        exact matchPep_triple_rest (c :: t) d1 d2 d3 ('-' :: (lbl ++ ('.' :: n)))
          h1 h2 h3 a1 a2 a3 rfl (isPrefixOf_cons_false c '-' t _ hc)
      exact pep440_pipeline_none _ (key 'a' [] (by decide)) (key 'b' [] (by decide))
        (key 'r' ['c'] (by decide))
  refine ⟨hfix, ?_⟩
  rw [hfix, hfix]

/-- Witness for C3 at the canonical pre-release string `3.0.0-beta.1`. -/
theorem C3_idempotent_witness :
    pep440_to_npm ("3.0.0-beta.1".data) = "3.0.0-beta.1".data ∧
      pep440_to_npm (pep440_to_npm ("3.0.0-beta.1".data)) =
        pep440_to_npm ("3.0.0-beta.1".data) :=
  C3_idempotent ("3.0.0-beta.1".data)
    ⟨['3'], ['0'], ['0'], by decide, by decide, by decide, by decide, by decide,
      by decide,
      Or.inr ⟨"beta".data, ['1'], Or.inr (Or.inl rfl), by decide, by decide, by decide⟩⟩

/-- Claim C4: an input matching none of the three conversion patterns
passes through `pep440_to_npm` unchanged, and if it additionally contains
no `-alpha`, `-beta` or `-rc` substring it is classified as `release`
(malformed input is never rejected). -/
theorem C4_passthrough (v : List Char)
    (ha : matchPep ['a'] v = none) (hb : matchPep ['b'] v = none)
    (hrc : matchPep ['r', 'c'] v = none) :
    pep440_to_npm v = v ∧
      (¬ ("-alpha".data <:+: v ∨ "-beta".data <:+: v ∨ "-rc".data <:+: v) →
        channelOf v = Channel.release) := by
  have hfix := pep440_pipeline_none v ha hb hrc
  refine ⟨hfix, fun hno => ?_⟩
  have hne : searchPre v ≠ true := fun hs => hno ((searchPre_iff v).mp hs)
  have hf : searchPre v = false := by simpa using hne
  simp [channelOf, hfix, hf]

/-- Witness for C4 at `3.0.0` (and at the clearly malformed `hello`). -/
theorem C4_passthrough_witness :
    pep440_to_npm ("3.0.0".data) = "3.0.0".data ∧
      channelOf ("3.0.0".data) = Channel.release ∧
      pep440_to_npm ("hello".data) = "hello".data :=
  ⟨(C4_passthrough ("3.0.0".data) (by decide) (by decide) (by decide)).1,
   (C4_passthrough ("3.0.0".data) (by decide) (by decide) (by decide)).2
     (fun hc => absurd ((searchPre_iff _).mpr hc) (by decide)),
   (C4_passthrough ("hello".data) (by decide) (by decide) (by decide)).1⟩

/-- Claim C5: the tag is the normalized version prefixed with
`pre-releases/` when the channel is `pre-release` and with `releases/` when
it is `release`; in particular `3.0.0a6` yields
`pre-releases/3.0.0-alpha.6` and `3.0.0` yields `releases/3.0.0`. -/
theorem C5_tag_derivation (raw : List Char) :
    (channelOf raw = Channel.preRelease →
      tagOf raw = "pre-releases/".data ++ pep440_to_npm raw) ∧
    (channelOf raw = Channel.release →
      tagOf raw = "releases/".data ++ pep440_to_npm raw) ∧
    tagOf ("3.0.0a6".data) = "pre-releases/3.0.0-alpha.6".data ∧
    tagOf ("3.0.0".data) = "releases/3.0.0".data := by
  refine ⟨?_, ?_, by decide, by decide⟩
  · intro h
    by_cases hs : searchPre (pep440_to_npm raw) = true
    · simp [tagOf, hs]
    · simp [channelOf, hs] at h
  · intro h
    by_cases hs : searchPre (pep440_to_npm raw) = true
    · simp [channelOf, hs] at h
    · simp [tagOf, hs]

/-- Witness for C5: the pre-release branch applied at `3.0.0a6`. -/
theorem C5_tag_derivation_witness :
    tagOf ("3.0.0a6".data) = "pre-releases/".data ++ pep440_to_npm ("3.0.0a6".data) :=
  (C5_tag_derivation ("3.0.0a6".data)).1 (by decide)

/-- Claim C6: when `package.json` does not exist at the expected path, the
program terminates with exit code 1, invokes no git command, and writes
nothing. -/
theorem C6_missing_manifest (arg : List Char) (env : Env)
    (h : env.packageJsonExists = false) :
    (mainRun arg env).exitCode = 1 ∧ (mainRun arg env).gitRan = [] ∧
      (mainRun arg env).written = none := by
  simp [mainRun, h]

/-- Witness for C6 in a concrete environment without a manifest. -/
theorem C6_missing_manifest_witness :
    (mainRun ("3.0.0".data) (Env.mk false [] (fun _ => 0))).exitCode = 1 ∧
      (mainRun ("3.0.0".data) (Env.mk false [] (fun _ => 0))).gitRan = [] ∧
      (mainRun ("3.0.0".data) (Env.mk false [] (fun _ => 0))).written = none :=
  C6_missing_manifest ("3.0.0".data) (Env.mk false [] (fun _ => 0)) rfl

/-- Claim C7: if the `j`-th git command (0-based, among add, commit, tag,
push HEAD, push tag) is the first to return a non-zero status, the program
exits with status 1 and no later command in the sequence is ever run: the
commands actually invoked are exactly the first `j + 1`. -/
theorem C7_git_failfast (arg : List Char) (env : Env) (j : Nat)
    (hex : env.packageJsonExists = true) (hj : j < 5)
    (hfail : env.gitExit j ≠ 0) (hok : ∀ i, i < j → env.gitExit i = 0) :
    (mainRun arg env).exitCode = 1 ∧
      (mainRun arg env).gitRan =
        (gitSequence (pep440_to_npm arg) (tagOf arg)).take (j + 1) := by
  have hlen : j < (gitSequence (pep440_to_npm arg) (tagOf arg)).length := by
    simpa [gitSequence] using hj
  have hrun := runGits_fail env.gitExit (gitSequence (pep440_to_npm arg) (tagOf arg)) 0 j
    hlen (by simpa using hfail) (fun k hk => by simpa using hok k hk)
  simp [mainRun, hex, hrun]

/-- Witness for C7: the commit (index 1) fails, so exactly the first two
commands run and the process exits with 1. -/
theorem C7_git_failfast_witness :
    (mainRun ("3.0.0".data)
        (Env.mk true [] (fun i => if i = 1 then 1 else 0))).exitCode = 1 ∧
      (mainRun ("3.0.0".data)
          (Env.mk true [] (fun i => if i = 1 then 1 else 0))).gitRan =
        (gitSequence (pep440_to_npm ("3.0.0".data)) (tagOf ("3.0.0".data))).take 2 :=
  C7_git_failfast ("3.0.0".data) (Env.mk true [] (fun i => if i = 1 then 1 else 0)) 1
    rfl (by decide) (by decide) (by decide)

/-- Claim C8: the manifest update changes only the `version` field: it is
set to the normalized version, every other key keeps its value, the
original key order is preserved (with `version` appended only when it was
absent), and the document is re-serialized by the indenting serializer with
a trailing newline. -/
theorem C8_manifest_update (arg : List Char) (env : Env)
    (hex : env.packageJsonExists = true) :
    (mainRun arg env).written =
      some (jsonDump (setKey ("version".data) (JVal.jstr (pep440_to_npm arg)) env.manifest)
        ++ ['\n']) ∧
    lookupKey ("version".data)
        (setKey ("version".data) (JVal.jstr (pep440_to_npm arg)) env.manifest) =
      some (JVal.jstr (pep440_to_npm arg)) ∧
    (∀ k, k ≠ "version".data →
      lookupKey k (setKey ("version".data) (JVal.jstr (pep440_to_npm arg)) env.manifest) =
        lookupKey k env.manifest) ∧
    ((setKey ("version".data) (JVal.jstr (pep440_to_npm arg)) env.manifest).map Prod.fst =
        env.manifest.map Prod.fst ∨
      (setKey ("version".data) (JVal.jstr (pep440_to_npm arg)) env.manifest).map Prod.fst =
        env.manifest.map Prod.fst ++ ["version".data]) ∧
    (jsonDump (setKey ("version".data) (JVal.jstr (pep440_to_npm arg)) env.manifest)
        ++ ['\n']).getLast? = some '\n' := by
  refine ⟨?_, lookupKey_setKey_self _ _ _, fun k hk => lookupKey_setKey_ne _ _ _ _ hk,
    setKey_keys _ _ _, List.getLast?_concat _⟩
  cases hr : (runGits env.gitExit 0 (gitSequence (pep440_to_npm arg) (tagOf arg))).2 with
  | none => simp [mainRun, hex, hr]
  | some code => simp [mainRun, hex, hr]

/-- Witness for C8 in a concrete environment whose manifest has a `name`
and a `version` key. -/
theorem C8_manifest_update_witness :
    (mainRun ("3.0.0".data)
        (Env.mk true [("name".data, JVal.jstr ("lanscape-ui".data)),
          ("version".data, JVal.jstr ("2.9.9".data))] (fun _ => 0))).written =
      some (jsonDump (setKey ("version".data) (JVal.jstr (pep440_to_npm ("3.0.0".data)))
        [("name".data, JVal.jstr ("lanscape-ui".data)),
          ("version".data, JVal.jstr ("2.9.9".data))]) ++ ['\n']) ∧
    lookupKey ("name".data)
        (setKey ("version".data) (JVal.jstr (pep440_to_npm ("3.0.0".data)))
          [("name".data, JVal.jstr ("lanscape-ui".data)),
            ("version".data, JVal.jstr ("2.9.9".data))]) =
      lookupKey ("name".data)
        [("name".data, JVal.jstr ("lanscape-ui".data)),
          ("version".data, JVal.jstr ("2.9.9".data))] :=
  ⟨(C8_manifest_update ("3.0.0".data)
      (Env.mk true [("name".data, JVal.jstr ("lanscape-ui".data)),
        ("version".data, JVal.jstr ("2.9.9".data))] (fun _ => 0)) rfl).1,
   (C8_manifest_update ("3.0.0".data)
      (Env.mk true [("name".data, JVal.jstr ("lanscape-ui".data)),
        ("version".data, JVal.jstr ("2.9.9".data))] (fun _ => 0)) rfl).2.2.1
     ("name".data) (by decide)⟩

/-- Claim C9: at most one of the three rewrite patterns matches any input,
the output of each rewrite matches none of the patterns applied after it,
and therefore the sequential three-substitution pipeline equals a single
one-of-three case analysis on the input. -/
theorem C9_pipeline_refines_cases (v : List Char) :
    (matchPep ['a'] v = none ∨ matchPep ['b'] v = none) ∧
    (matchPep ['a'] v = none ∨ matchPep ['r', 'c'] v = none) ∧
    (matchPep ['b'] v = none ∨ matchPep ['r', 'c'] v = none) ∧
    (∀ p n, matchPep ['a'] v = some (p, n) →
      matchPep ['b'] (p ++ "-alpha.".data ++ n) = none ∧
      matchPep ['r', 'c'] (p ++ "-alpha.".data ++ n) = none) ∧
    (∀ p n, matchPep ['b'] v = some (p, n) →
      matchPep ['r', 'c'] (p ++ "-beta.".data ++ n) = none) ∧
    pep440_to_npm v = pep440_cases v := by
  refine ⟨?_, ?_, ?_, ?_, ?_, pipeline_eq_cases v⟩
  · by_cases h : matchPep ['a'] v = none
    · exact Or.inl h
    · exact Or.inr (matchPep_excl 'a' 'b' [] [] v (by decide) h)
  · by_cases h : matchPep ['a'] v = none
    · exact Or.inl h
    · exact Or.inr (matchPep_excl 'a' 'r' [] ['c'] v (by decide) h)
  · by_cases h : matchPep ['b'] v = none
    · exact Or.inl h
    · exact Or.inr (matchPep_excl 'b' 'r' [] ['c'] v (by decide) h)
  · intro p n hpn
    exact ⟨matchPep_after_rewrite ['a'] v p n 'b' [] ("-alpha.".data) hpn rfl (by decide),
      matchPep_after_rewrite ['a'] v p n 'r' ['c'] ("-alpha.".data) hpn rfl (by decide)⟩
  · intro p n hpn
    exact matchPep_after_rewrite ['b'] v p n 'r' ['c'] ("-beta.".data) hpn rfl (by decide)

/-- Witness for C9: the pipeline and the case analysis agree at `3.0.0a6`. -/
theorem C9_pipeline_refines_cases_witness :
    pep440_to_npm ("3.0.0a6".data) = pep440_cases ("3.0.0a6".data) :=
  (C9_pipeline_refines_cases ("3.0.0a6".data)).2.2.2.2.2

/-- Claim C10: whenever `pep440_to_npm` changes its input (one of the three
conversion patterns matched), the result is classified `pre-release`: a
converted version can never land on the `release` channel. -/
theorem C10_converted_is_prerelease (v : List Char) (h : pep440_to_npm v ≠ v) :
    channelOf v = Channel.preRelease := by
  rcases ha : matchPep ['a'] v with _ | ⟨⟨p, n⟩⟩
  · rcases hb : matchPep ['b'] v with _ | ⟨⟨p, n⟩⟩
    · rcases hrc : matchPep ['r', 'c'] v with _ | ⟨⟨p, n⟩⟩
      · exact absurd (pep440_pipeline_none v ha hb hrc) h
      · have hval := pep440_pipeline_rc v p n ha hb hrc
        have e : p ++ "-rc.".data ++ n = p ++ "-rc".data ++ ('.' :: n) := by simp
        have hinf : "-rc".data <:+: pep440_to_npm v := by
          rw [hval, e]
          exact infix_of_middle p ("-rc".data) ('.' :: n)
        have hs : searchPre (pep440_to_npm v) = true :=
          (searchPre_iff _).mpr (Or.inr (Or.inr hinf))
        simp [channelOf, hs]
    · have hval := pep440_pipeline_b v p n ha hb
      have e : p ++ "-beta.".data ++ n = p ++ "-beta".data ++ ('.' :: n) := by simp
      have hinf : "-beta".data <:+: pep440_to_npm v := by
        rw [hval, e]
        exact infix_of_middle p ("-beta".data) ('.' :: n)
      have hs : searchPre (pep440_to_npm v) = true :=
        (searchPre_iff _).mpr (Or.inr (Or.inl hinf))
      simp [channelOf, hs]
  · have hval := pep440_pipeline_a v p n ha
    have e : p ++ "-alpha.".data ++ n = p ++ "-alpha".data ++ ('.' :: n) := by simp
    have hinf : "-alpha".data <:+: pep440_to_npm v := by
      rw [hval, e]
      exact infix_of_middle p ("-alpha".data) ('.' :: n)
    have hs : searchPre (pep440_to_npm v) = true :=
      (searchPre_iff _).mpr (Or.inl hinf)
    simp [channelOf, hs]

/-- Witness for C10 at `3.0.0a6`, which the pipeline rewrites. -/
theorem C10_converted_is_prerelease_witness :
    pep440_to_npm ("3.0.0a6".data) ≠ "3.0.0a6".data ∧
      channelOf ("3.0.0a6".data) = Channel.preRelease :=
  ⟨by decide, C10_converted_is_prerelease ("3.0.0a6".data) (by decide)⟩

end TagRelease
